import Mathlib

/-! Verification of the alignment core of CellSegAdapt
(src/segmentor/cellbin/contrib/alignment.py).

Real-valued quantities of the source are modelled by exact rationals; the
trigonometric factors are the exact real values taken at the right-angle
multiples that the pipeline feeds to rotate.  Fallible operations of the
source (out-of-bounds array indexing, reductions over empty arrays,
division with a degenerate denominator) are modelled with Option. -/

/-- Floor of a rational, written so that it evaluates by kernel reduction
(it equals the mathematical floor, see qfloor_eq). -/
def qfloor (q : ℚ) : ℤ := q.num / q.den

/-- Round half to even, the rounding applied by Python round and by numpy. -/
def pyRound (q : ℚ) : ℤ :=
  if q - qfloor q < 1/2 then qfloor q
  else if 1/2 < q - qfloor q then qfloor q + 1
  else if qfloor q % 2 = 0 then qfloor q else qfloor q + 1

/-- Exact value of math.cos (math.radians angle) for angles that are
multiples of 90 degrees, the only angles the pipeline uses
(search_angle_set is (0, 90, 180, 270), and the round-trip angle 360 - a
stays in that family).  On other angles the value is junk (0). -/
def qcos (angle : ℤ) : ℚ :=
  if angle % 360 = 0 then 1
  else if angle % 360 = 90 then 0
  else if angle % 360 = 180 then -1
  else if angle % 360 = 270 then 0
  else 0

/-- Exact value of math.sin (math.radians angle) for multiples of 90
degrees, as for qcos. -/
def qsin (angle : ℤ) : ℚ :=
  if angle % 360 = 0 then 0
  else if angle % 360 = 90 then 1
  else if angle % 360 = 180 then 0
  else if angle % 360 = 270 then -1
  else 0

/-- Source rotate (alignment.py lines 11-23): rotate a point about the
center of original_shape, then re-center by half the shape delta.
Shapes are (height, width) pairs. -/
def rotate (ptx pty : ℚ) (angle : ℤ) (original_shape new_shape : ℚ × ℚ) : ℚ × ℚ :=
  let ori_h := original_shape.1
  let ori_w := original_shape.2
  let new_h := new_shape.1
  let new_w := new_shape.2
  let cx := ori_w / 2
  let cy := ori_h / 2
  let new_px := cx + (ptx - cx) * qcos angle + (pty - cy) * qsin angle
  let new_py := cy + -((ptx - cx) * qsin angle) + (pty - cy) * qcos angle
  (new_px + (new_w - ori_w) / 2, new_py + (new_h - ori_h) / 2)

/-- Source get_new_shape (lines 181-190): bounding (height, width) after
rotating old_shape by angle, new_w = round(h*|sin| + w*|cos|),
new_h = round(w*|sin| + h*|cos|). -/
def get_new_shape (old_shape : ℚ × ℚ) (angle : ℤ) : ℚ × ℚ :=
  let h := old_shape.1
  let w := old_shape.2
  let angle_sin := |qsin angle|
  let angle_cos := |qcos angle|
  ((pyRound (w * angle_sin + h * angle_cos) : ℚ),
   (pyRound (h * angle_sin + w * angle_cos) : ℚ))

/-- A 2D numpy array of rationals: a (height, width) shape together with a
total pixel function (only indices below the shape are meaningful). -/
structure Img where
  h : ℕ
  w : ℕ
  px : ℕ → ℕ → ℚ

/-- Source multiply_sum (lines 25-35): sum of elementwise products, looping
over the shape of the first argument.  Indexing the second argument out of
its bounds raises in Python (and is undefined under numba), modelled as
none; that happens exactly when the first argument has a nonempty index
range exceeding the second argument's shape. -/
def multiply_sum (a b : Img) : Option ℚ :=
  if 0 < a.h ∧ 0 < a.w ∧ (b.h < a.h ∨ b.w < a.w) then none
  else some (∑ i ∈ Finset.range a.h, ∑ j ∈ Finset.range a.w, a.px i j * b.px i j)

/-- Start of the read window in the transformed image on one axis
(cal_score lines 149-162): round(|o|) for a negative offset, else 0. -/
def tShift (o : ℚ) : ℤ :=
  if o < 0 then pyRound |o| else 0

/-- Start of the read window in the vision image on one axis: 0 for a
negative offset, else round(|o|). -/
def vShift (o : ℚ) : ℤ :=
  if o < 0 then 0 else pyRound |o|

/-- Overlap height of cal_score (line 165): minimum of the two remaining
row extents from the respective start offsets. -/
def overlapH (transformed vision : Img) (oy : ℚ) : ℤ :=
  min ((vision.h : ℤ) - vShift oy) ((transformed.h : ℤ) - tShift oy)

/-- Overlap width of cal_score (line 165): minimum of the two remaining
column extents from the respective start offsets. -/
def overlapW (transformed vision : Img) (ox : ℚ) : ℤ :=
  min ((vision.w : ℤ) - vShift ox) ((transformed.w : ℤ) - tShift ox)

/-- Effective numpy slice endpoint for a dimension of size dim: a negative
endpoint has dim added (wrap-around), then the result is clamped to
[0, dim]. -/
def npBound (dim : ℕ) (i : ℤ) : ℕ :=
  (max 0 (min (dim : ℤ) (if i < 0 then i + dim else i))).toNat

/-- The 2D slice img[r0:r1, c0:c1] with numpy endpoint semantics. -/
def npSlice2 (img : Img) (r0 r1 c0 c1 : ℤ) : Img :=
  ⟨npBound img.h r1 - npBound img.h r0, npBound img.w c1 - npBound img.w c0,
   fun i j => img.px (npBound img.h r0 + i) (npBound img.w c0 + j)⟩

/-- Source cal_score (lines 118-167, active path): slice both images to the
computed overlap window and feed the slices to multiply_sum.  The offset is
(ox, oy) with ox acting on columns and oy on rows, as in the source. -/
def cal_score (transformed_image vision_image : Img) (ox oy : ℚ) : Option ℚ :=
  let x := tShift ox
  let x0 := vShift ox
  let y := tShift oy
  let y0 := vShift oy
  let h := overlapH transformed_image vision_image oy
  let w := overlapW transformed_image vision_image ox
  multiply_sum
    (npSlice2 vision_image y0 (y0 + h) x0 (x0 + w))
    (npSlice2 transformed_image y (y + h) x (x + w))

/-- Image of constant intensity, used as a concrete test fixture. -/
def constImg (h w : ℕ) (c : ℚ) : Img := ⟨h, w, fun _ _ => c⟩

/-- Downsampling img[::5, ::5] (line 177): every fifth row and column,
ceil(n / 5) entries per axis. -/
def downsample5 (img : Img) : Img :=
  ⟨(img.h + 4) / 5, (img.w + 4) / 5, fun i j => img.px (5 * i) (5 * j)⟩

/-- Row-major list of the pixel values of an image. -/
def imgVals (img : Img) : List ℚ :=
  (List.range img.h).flatMap fun i => (List.range img.w).map fun j => img.px i j

/-- np.min over the values of an array: none on an empty array, where
numpy raises. -/
def npMin : List ℚ → Option ℚ
  | [] => none
  | x :: xs => some (xs.foldl min x)

/-- np.max over the values of an array: none on an empty array. -/
def npMax : List ℚ → Option ℚ
  | [] => none
  | x :: xs => some (xs.foldl max x)

/-- Source down_sample_normalize (lines 175-179): downsample by 5 on both
axes, then map intensities through (v - min) / (max - min) * 100.  When
max = min the source divides zero by zero, producing NaN intensities (no
valid image), and on an empty image np.min raises; both are modelled as
none. -/
def down_sample_normalize (img : Img) : Option Img :=
  let d := downsample5 img
  (npMin (imgVals d)).bind fun mn =>
    (npMax (imgVals d)).bind fun mx =>
      if mx - mn = 0 then none
      else some ⟨d.h, d.w, fun i j => (d.px i j - mn) / (mx - mn) * 100⟩

/-- Test fixture: a 6x6 intensity ramp whose 5-fold downsampling is the
2x2 image with values 0, 5, 5, 10. -/
def rampImg : Img := ⟨6, 6, fun i j => (i : ℚ) + (j : ℚ)⟩

/-- Squared euclidean distance between two points.  The source compares
euclidean distances against the nonnegative threshold dist_thresh, which
is equivalent to comparing squares. -/
def sqDist (p q : ℚ × ℚ) : ℚ := (p.1 - q.1) ^ 2 + (p.2 - q.2) ^ 2

/-- Qualification gate of get_rough_offset (lines 204-205): the nearest
vision point of the translated point lies within dist_thresh, i.e. some
vision point is within the threshold.  For an empty vision set the source
np.min raises; here no point qualifies. -/
def isQualified (offset_guess : ℚ × ℚ) (vision_pts : List (ℚ × ℚ))
    (dist_thresh : ℚ) (p : ℚ × ℚ) : Bool :=
  vision_pts.any fun v =>
    decide (sqDist (p.1 + offset_guess.1, p.2 + offset_guess.2) v ≤ dist_thresh ^ 2)

/-- First nearest point of the list to p, matching np.argmin which returns
the first index attaining the minimum (the fold only updates on a strict
decrease). -/
def nearestPt (p : ℚ × ℚ) : List (ℚ × ℚ) → Option (ℚ × ℚ)
  | [] => none
  | v :: vs => some (vs.foldl (fun best w => if sqDist p w < sqDist p best then w else best) v)

/-- Vision point matched to a qualified point p (line 208):
vision_pts[argmin of the distance row of the translated point].  The
default is never reached: a qualified p guarantees vision_pts is
nonempty. -/
def matchedVisionPt (offset_guess : ℚ × ℚ) (vision_pts : List (ℚ × ℚ))
    (p : ℚ × ℚ) : ℚ × ℚ :=
  (nearestPt (p.1 + offset_guess.1, p.2 + offset_guess.2) vision_pts).getD (0, 0)

/-- Rotated transformed points of get_rough_offset (lines 194-201). -/
def roughRotated (rot_guess : ℤ) (old_shape new_shape : ℚ × ℚ)
    (transformed_pts : List (ℚ × ℚ)) : List (ℚ × ℚ) :=
  transformed_pts.map fun p => rotate p.1 p.2 rot_guess old_shape new_shape

/-- Qualified rotated points of get_rough_offset (lines 204-206), in
order. -/
def roughQualified (offset_guess : ℚ × ℚ) (rot_guess : ℤ)
    (old_shape new_shape : ℚ × ℚ) (transformed_pts vision_pts : List (ℚ × ℚ))
    (dist_thresh : ℚ) : List (ℚ × ℚ) :=
  (roughRotated rot_guess old_shape new_shape transformed_pts).filter
    (isQualified offset_guess vision_pts dist_thresh)

/-- np.median: middle element of the sorted values for odd length, mean of
the two middle elements for even length.  On the empty list numpy yields
nan; the junk value 0 here is never reached by the claims. -/
def median (l : List ℚ) : ℚ :=
  let s := l.insertionSort (· ≤ ·)
  if l.length % 2 = 1 then (s[l.length / 2]?).getD 0
  else ((s[l.length / 2 - 1]?).getD 0 + (s[l.length / 2]?).getD 0) / 2

/-- Source get_rough_offset (lines 192-215).  Note that each returned axis
is the negative median of rotated-point minus matched-vision-point: the
source takes the differences from transformed_pts_temp, the rotated points
WITHOUT the offset_guess translation (translation enters only the
qualification distances). -/
def get_rough_offset (offset_guess : ℚ × ℚ) (rot_guess : ℤ)
    (old_shape new_shape : ℚ × ℚ) (transformed_pts vision_pts : List (ℚ × ℚ))
    (dist_thresh : ℚ) : ℚ × ℚ :=
  let q := roughQualified offset_guess rot_guess old_shape new_shape
    transformed_pts vision_pts dist_thresh
  if 0 < q.length then
    (-(median (q.map fun p => p.1 - (matchedVisionPt offset_guess vision_pts p).1)),
     -(median (q.map fun p => p.2 - (matchedVisionPt offset_guess vision_pts p).2)))
  else (0, 0)

/-- Modelled from the spec: the value claim C1 prescribes for
get_rough_offset, the negative per-axis median of the differences between
the TRANSLATED transformed points (rotated plus offset_guess) and their
matched vision points. -/
def rough_offset_claimed (offset_guess : ℚ × ℚ) (rot_guess : ℤ)
    (old_shape new_shape : ℚ × ℚ) (transformed_pts vision_pts : List (ℚ × ℚ))
    (dist_thresh : ℚ) : ℚ × ℚ :=
  let q := roughQualified offset_guess rot_guess old_shape new_shape
    transformed_pts vision_pts dist_thresh
  if 0 < q.length then
    (-(median (q.map fun p =>
        p.1 + offset_guess.1 - (matchedVisionPt offset_guess vision_pts p).1)),
     -(median (q.map fun p =>
        p.2 + offset_guess.2 - (matchedVisionPt offset_guess vision_pts p).2)))
  else (0, 0)

/-- One row of a landmark template array: pixel coordinates (x, y) and the
chip-grid indices (columns 2 and 3 of the source arrays). -/
structure TRow where
  x : ℚ
  y : ℚ
  idx : ℚ
  idy : ℚ
deriving DecidableEq

/-- Source adjust_cross (lines 93-116).  The source mutates its
stitch_template argument in place (the scaling writes through the array,
and pts and ids are views of it); the state passing returns the final
value of that argument as the first component, and the freshly built
pts_ids array as the second. -/
def adjust_cross (stitch_template : List TRow) (scale_x scale_y : ℚ)
    (fov_stitched_shape new_shape : ℚ × ℚ) (chip_template : List ℚ × List ℚ)
    (rotation : ℤ) (flip : Bool) : List TRow × List TRow :=
  let scale_shape : ℚ × ℚ :=
    (fov_stitched_shape.1 * scale_y, fov_stitched_shape.2 * scale_x)
  let st1 := stitch_template.map fun r =>
    TRow.mk (r.x * scale_x) (r.y * scale_y) r.idx r.idy
  let chip_xlen : ℚ := (chip_template.1.length : ℚ)
  let st2 := if flip then
      st1.map fun r => TRow.mk r.x r.y (chip_xlen - 1 - r.idx) r.idy
    else st1
  let pts_ids := st2.map fun r =>
    let p := rotate r.x r.y rotation scale_shape new_shape
    let px := if flip then new_shape.2 - 1 - p.1 else p.1
    TRow.mk px p.2 r.idx r.idy
  (st2, pts_ids)

/-- The instance fields of AlignByTrack that the search loop reads. -/
structure AlignState where
  fov_size : ℚ
  dist_thresh : ℚ
  transformed_shape : ℚ × ℚ
  transformed_mass : ℚ × ℚ
  vision_mass : ℚ × ℚ
  vision_img : Img
  transformed_image : Img
  transformed_cfov_pts : List (ℚ × ℚ)
  vision_cfov_pts : List (ℚ × ℚ)

/-- One counterclockwise quarter turn of an image, np.rot90 with k = 1:
result[i][j] = a[j][w - 1 - i]. -/
def rot90 (img : Img) : Img :=
  ⟨img.w, img.h, fun i j => img.px j (img.w - 1 - i)⟩

/-- The rotated transformed image used by search_fov (line 219):
np.rot90(white_image, angle // 90), which takes the quarter-turn count
modulo 4.  Faithful for the nonnegative multiples of 90 in
search_angle_set. -/
def rotWhite (st : AlignState) (angle : ℤ) : Img :=
  rot90^[(angle / 90).toNat % 4] st.transformed_image

/-- search_range_x = search_range_y = [-2, -1, 0, 1, 2] (lines 66-67). -/
def searchRange : List ℤ := [-2, -1, 0, 1, 2]

/-- The 25 candidate offsets of search_fov in raster order: the outer loop
variable row pairs with the y axis, the inner col with the x axis
(line 227). -/
def fovCandidates (offset_ori : ℚ × ℚ) (fov_size : ℚ) : List (ℚ × ℚ) :=
  searchRange.flatMap fun row => searchRange.map fun col =>
    (offset_ori.1 + (col : ℚ) * fov_size, offset_ori.2 + (row : ℚ) * fov_size)

/-- Score of one candidate in search_fov (line 228): cal_score on the
rotated transformed image and the vision image at the candidate divided by
the downsampling factor 5. -/
def candScore (st : AlignState) (angle : ℤ) (c : ℚ × ℚ) : Option ℚ :=
  cal_score (rotWhite st angle) st.vision_img (c.1 / 5) (c.2 / 5)

/-- The accumulation loop of search_fov (lines 225-231) over the flattened
candidate list: state (score_max, offset_last), update only on a strictly
greater score; a scoring exception aborts the loop (none). -/
def fovFold (score : ℚ × ℚ → Option ℚ) :
    List (ℚ × ℚ) → ℚ × Option (ℚ × ℚ) → Option (ℚ × Option (ℚ × ℚ))
  | [], acc => some acc
  | c :: cs, acc =>
    match score c with
    | none => none
    | some s => fovFold score cs (if acc.1 < s then (s, some c) else acc)

/-- Source search_fov (lines 217-232): initial score_max = 0 and
offset_last = [] (modelled none); returns (offset_last, score_max). -/
def search_fov (st : AlignState) (offset_ori : ℚ × ℚ) (angle : ℤ) :
    Option (Option (ℚ × ℚ) × ℚ) :=
  (fovFold (candScore st angle) (fovCandidates offset_ori st.fov_size) (0, none)).map
    fun r => (r.2, r.1)

/-- search_angle_set = (0, 90, 180, 270) (line 65). -/
def angleSet : List ℤ := [0, 90, 180, 270]

/-- The rough offset computed by one hypothesis iteration of
get_best_in_all_angles_offsets (lines 238-258): rotate the mass center
into the new shape frame, take the mass-difference guess, then call
get_rough_offset. -/
def roughOffsetAt (st : AlignState) (angle : ℤ) : ℚ × ℚ :=
  let old_shape := st.transformed_shape
  let new_shape := get_new_shape old_shape angle
  let rm := rotate st.transformed_mass.1 st.transformed_mass.2 angle
    st.transformed_shape new_shape
  let offset_temp := (st.vision_mass.1 - rm.1, st.vision_mass.2 - rm.2)
  get_rough_offset offset_temp angle old_shape new_shape
    st.transformed_cfov_pts st.vision_cfov_pts st.dist_thresh

/-- One rotation-hypothesis iteration of the orchestrator (lines 237-264):
run search_fov on the rough offset when it is nonzero on both axes,
otherwise record the empty offset and score 0. -/
def hypothesisStep (st : AlignState) (angle : ℤ) : Option (Option (ℚ × ℚ) × ℚ) :=
  let r := roughOffsetAt st angle
  if r.1 ≠ 0 ∧ r.2 ≠ 0 then search_fov st r angle
  else some (none, 0)

/-- max over a nonempty python list (line 266); junk 0 on the empty list,
never reached since angleSet is nonempty. -/
def listMax : List ℚ → ℚ
  | [] => 0
  | x :: xs => xs.foldl max x

/-- Source get_best_in_all_angles_offsets (lines 234-269): run every
rotation hypothesis, then pick the first hypothesis attaining the maximal
score (python list.index returns the first occurrence). -/
def get_best_in_all_angles_offsets (st : AlignState) :
    Option (Option (ℚ × ℚ) × ℕ × ℚ) :=
  (angleSet.mapM (hypothesisStep st)).map fun recs =>
    let scores := recs.map Prod.snd
    let best := listMax scores
    let rot_type := scores.indexOf best
    (((recs[rot_type]?).map Prod.fst).join, rot_type, best)

/-- Concrete AlignState fixture with 1x1 images (the vision image is all
zero, so every candidate scores 0). -/
def testState : AlignState :=
  { fov_size := 5
    dist_thresh := 2
    transformed_shape := (1, 1)
    transformed_mass := (0, 0)
    vision_mass := (0, 0)
    vision_img := constImg 1 1 0
    transformed_image := constImg 1 1 1
    transformed_cfov_pts := [(0, 0)]
    vision_cfov_pts := [(0, 0)] }

/-- Loop invariant of the search_fov accumulator (score_max, offset_last)
with respect to the processed prefix of the candidate list: the running
maximum is nonnegative, every processed candidate scored successfully and
at most score_max; offset_last = none means score_max is still 0, and
offset_last = some off means off is the first processed candidate
attaining the (strictly positive) running maximum. -/
def FovInv (score : ℚ × ℚ → Option ℚ) (processed : List (ℚ × ℚ))
    (acc : ℚ × Option (ℚ × ℚ)) : Prop :=
  0 ≤ acc.1
  ∧ (∀ c ∈ processed, (score c).isSome)
  ∧ (∀ c ∈ processed, ∀ v, score c = some v → v ≤ acc.1)
  ∧ (acc.2 = none → acc.1 = 0)
  ∧ (∀ off, acc.2 = some off → score off = some acc.1 ∧ 0 < acc.1
      ∧ ∃ pre post, processed = pre ++ off :: post
          ∧ ∀ c ∈ pre, ∀ v, score c = some v → v < acc.1)

-- ===== THEOREMS =====

theorem qfloor_eq (q : ℚ) : qfloor q = ⌊q⌋ := Rat.floor_def.symm

theorem pyRound_intCast (n : ℤ) : pyRound (n : ℚ) = n := by
  unfold pyRound
  rw [qfloor_eq, Int.floor_intCast]
  norm_num

theorem pyRound_natCast (n : ℕ) : pyRound (n : ℚ) = n := by
  have : ((n : ℤ) : ℚ) = (n : ℚ) := by push_cast; ring
  rw [← this, pyRound_intCast]

/-- C7: for every (height, width) shape of natural-number extents,
get_new_shape is the identity at angles 0 and 180 and the transpose at
angle 90 (the rounding in the formula is exact there). -/
theorem get_new_shape_right_angles (h w : ℕ) :
    get_new_shape ((h : ℚ), (w : ℚ)) 0 = ((h : ℚ), (w : ℚ))
    ∧ get_new_shape ((h : ℚ), (w : ℚ)) 180 = ((h : ℚ), (w : ℚ))
    ∧ get_new_shape ((h : ℚ), (w : ℚ)) 90 = ((w : ℚ), (h : ℚ)) := by
  refine ⟨?_, ?_, ?_⟩ <;>
    · unfold get_new_shape
      norm_num [qsin, qcos, pyRound_natCast]

/-- C8: rotate composed with the rotation by 360 minus the angle, with the
shape arguments swapped back, returns the original point exactly, for all
four supported angles and arbitrary shapes. -/
theorem rotate_roundtrip (px py : ℚ) (os ns : ℚ × ℚ) (a : ℤ)
    (ha : a = 0 ∨ a = 90 ∨ a = 180 ∨ a = 270) :
    rotate (rotate px py a os ns).1 (rotate px py a os ns).2 (360 - a) ns os
      = (px, py) := by
  obtain ⟨oh, ow⟩ := os
  obtain ⟨nh, nw⟩ := ns
  rcases ha with rfl | rfl | rfl | rfl <;>
    · norm_num [rotate, qcos, qsin]
      constructor <;> ring

/-- Witness for C8 at a concrete point, shape pair and the angle 90. -/
theorem rotate_roundtrip_witness :
    rotate (rotate 1 2 90 (3, 5) (7, 11)).1 (rotate 1 2 90 (3, 5) (7, 11)).2
      (360 - 90) (7, 11) (3, 5) = (1, 2) :=
  rotate_roundtrip 1 2 (3, 5) (7, 11) 90 (Or.inr (Or.inl rfl))

theorem pyRound_nonneg {q : ℚ} (hq : 0 ≤ q) : 0 ≤ pyRound q := by
  have h0 : (0 : ℤ) ≤ qfloor q := by
    rw [qfloor_eq]
    exact Int.floor_nonneg.mpr hq
  unfold pyRound
  split
  · exact h0
  · split
    · omega
    · split <;> omega

theorem tShift_nonneg (o : ℚ) : 0 ≤ tShift o := by
  unfold tShift
  split
  · exact pyRound_nonneg (abs_nonneg o)
  · exact le_refl 0

theorem vShift_nonneg (o : ℚ) : 0 ≤ vShift o := by
  unfold vShift
  split
  · exact le_refl 0
  · exact pyRound_nonneg (abs_nonneg o)

theorem npBound_of_nonneg_le (dim : ℕ) (i : ℤ) (h0 : 0 ≤ i) (h1 : i ≤ dim) :
    npBound dim i = i.toNat := by
  unfold npBound
  rw [if_neg (by omega)]
  omega

theorem npBound_zero (dim : ℕ) : npBound dim 0 = 0 := by
  unfold npBound
  rw [if_neg (by omega)]
  omega

theorem npBound_dim (dim : ℕ) : npBound dim (dim : ℤ) = dim := by
  unfold npBound
  rw [if_neg (by omega)]
  omega

/-- C2 is violated by the code: at transformed image 2x2, vision image
20x2, offset (0, -10), the computed overlap height is -8 (not positive),
yet cal_score does not return 0.  The negative slice endpoint wraps around
under numpy semantics, producing a 12-row vision slice paired with an
empty transformed slice, and multiply_sum indexes its second argument out
of bounds: an IndexError in Python (undefined behaviour under numba),
modelled as none. -/
theorem cal_score_overlap_bug :
    overlapH (constImg 2 2 1) (constImg 20 2 1) (-10) = -8
    ∧ cal_score (constImg 2 2 1) (constImg 20 2 1) 0 (-10) = none := by
  constructor
  · with_unfolding_all decide
  · with_unfolding_all decide

/-- C6: cal_score at offset (0, 0) on two copies of one image equals
multiply_sum of the image with itself, the sum of squared intensities. -/
theorem cal_score_self_zero_offset (img : Img) :
    cal_score img img 0 0 = multiply_sum img img := by
  have hts : tShift 0 = 0 := by
    unfold tShift
    rw [if_neg (by norm_num)]
  have hvs : vShift 0 = 0 := by
    unfold vShift pyRound
    rw [if_neg (by norm_num)]
    have hq : qfloor |(0 : ℚ)| = 0 := by
      rw [qfloor_eq]
      norm_num
    rw [hq]
    norm_num
  have hH : overlapH img img 0 = (img.h : ℤ) := by
    unfold overlapH
    rw [hts, hvs]
    omega
  have hW : overlapW img img 0 = (img.w : ℤ) := by
    unfold overlapW
    rw [hts, hvs]
    omega
  show multiply_sum
      (npSlice2 img (vShift 0) (vShift 0 + overlapH img img 0)
        (vShift 0) (vShift 0 + overlapW img img 0))
      (npSlice2 img (tShift 0) (tShift 0 + overlapH img img 0)
        (tShift 0) (tShift 0 + overlapW img img 0))
      = multiply_sum img img
  rw [hts, hvs, hH, hW]
  have hs : npSlice2 img 0 (0 + (img.h : ℤ)) 0 (0 + (img.w : ℤ))
      = ⟨img.h, img.w, fun i j => img.px (npBound img.h 0 + i) (npBound img.w 0 + j)⟩ := by
    unfold npSlice2
    rw [zero_add, zero_add, npBound_zero, npBound_zero, npBound_dim, npBound_dim]
    rfl
  rw [hs]
  unfold multiply_sum
  simp [npBound_zero]

/-- C9: when both computed overlap extents are positive, the two slices
built by cal_score have the identical shape (overlap height, overlap
width), both lie entirely inside their source images, and multiply_sum is
invoked within bounds (cal_score succeeds). -/
theorem cal_score_slices_inbounds (t v : Img) (ox oy : ℚ)
    (hh : 0 < overlapH t v oy) (hw : 0 < overlapW t v ox) :
    (npSlice2 v (vShift oy) (vShift oy + overlapH t v oy)
        (vShift ox) (vShift ox + overlapW t v ox)).h = (overlapH t v oy).toNat
    ∧ (npSlice2 v (vShift oy) (vShift oy + overlapH t v oy)
        (vShift ox) (vShift ox + overlapW t v ox)).w = (overlapW t v ox).toNat
    ∧ (npSlice2 t (tShift oy) (tShift oy + overlapH t v oy)
        (tShift ox) (tShift ox + overlapW t v ox)).h = (overlapH t v oy).toNat
    ∧ (npSlice2 t (tShift oy) (tShift oy + overlapH t v oy)
        (tShift ox) (tShift ox + overlapW t v ox)).w = (overlapW t v ox).toNat
    ∧ vShift oy + overlapH t v oy ≤ v.h ∧ vShift ox + overlapW t v ox ≤ v.w
    ∧ tShift oy + overlapH t v oy ≤ t.h ∧ tShift ox + overlapW t v ox ≤ t.w
    ∧ (cal_score t v ox oy).isSome := by
  have hvy := vShift_nonneg oy
  have hvx := vShift_nonneg ox
  have hty := tShift_nonneg oy
  have htx := tShift_nonneg ox
  have hHv : overlapH t v oy ≤ (v.h : ℤ) - vShift oy := min_le_left _ _
  have hHt : overlapH t v oy ≤ (t.h : ℤ) - tShift oy := min_le_right _ _
  have hWv : overlapW t v ox ≤ (v.w : ℤ) - vShift ox := min_le_left _ _
  have hWt : overlapW t v ox ≤ (t.w : ℤ) - tShift ox := min_le_right _ _
  have e1 : npBound v.h (vShift oy) = (vShift oy).toNat :=
    npBound_of_nonneg_le _ _ hvy (by omega)
  have e2 : npBound v.h (vShift oy + overlapH t v oy)
      = (vShift oy + overlapH t v oy).toNat :=
    npBound_of_nonneg_le _ _ (by omega) (by omega)
  have e3 : npBound v.w (vShift ox) = (vShift ox).toNat :=
    npBound_of_nonneg_le _ _ hvx (by omega)
  have e4 : npBound v.w (vShift ox + overlapW t v ox)
      = (vShift ox + overlapW t v ox).toNat :=
    npBound_of_nonneg_le _ _ (by omega) (by omega)
  have e5 : npBound t.h (tShift oy) = (tShift oy).toNat :=
    npBound_of_nonneg_le _ _ hty (by omega)
  have e6 : npBound t.h (tShift oy + overlapH t v oy)
      = (tShift oy + overlapH t v oy).toNat :=
    npBound_of_nonneg_le _ _ (by omega) (by omega)
  have e7 : npBound t.w (tShift ox) = (tShift ox).toNat :=
    npBound_of_nonneg_le _ _ htx (by omega)
  have e8 : npBound t.w (tShift ox + overlapW t v ox)
      = (tShift ox + overlapW t v ox).toNat :=
    npBound_of_nonneg_le _ _ (by omega) (by omega)
  have d1 : (npSlice2 v (vShift oy) (vShift oy + overlapH t v oy)
      (vShift ox) (vShift ox + overlapW t v ox)).h = (overlapH t v oy).toNat := by
    simp only [npSlice2]
    rw [e1, e2]
    omega
  have d2 : (npSlice2 v (vShift oy) (vShift oy + overlapH t v oy)
      (vShift ox) (vShift ox + overlapW t v ox)).w = (overlapW t v ox).toNat := by
    simp only [npSlice2]
    rw [e3, e4]
    omega
  have d3 : (npSlice2 t (tShift oy) (tShift oy + overlapH t v oy)
      (tShift ox) (tShift ox + overlapW t v ox)).h = (overlapH t v oy).toNat := by
    simp only [npSlice2]
    rw [e5, e6]
    omega
  have d4 : (npSlice2 t (tShift oy) (tShift oy + overlapH t v oy)
      (tShift ox) (tShift ox + overlapW t v ox)).w = (overlapW t v ox).toNat := by
    simp only [npSlice2]
    rw [e7, e8]
    omega
  refine ⟨d1, d2, d3, d4, by omega, by omega, by omega, by omega, ?_⟩
  show (multiply_sum
      (npSlice2 v (vShift oy) (vShift oy + overlapH t v oy)
        (vShift ox) (vShift ox + overlapW t v ox))
      (npSlice2 t (tShift oy) (tShift oy + overlapH t v oy)
        (tShift ox) (tShift ox + overlapW t v ox))).isSome
  unfold multiply_sum
  rw [if_neg (by rw [d1, d2, d3, d4]; omega)]
  rfl

theorem foldl_min_le_init (xs : List ℚ) (a : ℚ) : xs.foldl min a ≤ a := by
  induction xs generalizing a with
  | nil => simp
  | cons x xs ih => exact le_trans (ih (min a x)) (min_le_left a x)

theorem foldl_min_le_mem (xs : List ℚ) (a v : ℚ) (hv : v ∈ xs) :
    xs.foldl min a ≤ v := by
  induction xs generalizing a with
  | nil => cases hv
  | cons x xs ih =>
    rcases List.mem_cons.mp hv with rfl | h2
    · exact le_trans (foldl_min_le_init xs (min a v)) (min_le_right a v)
    · exact ih _ h2

theorem le_foldl_max_init (xs : List ℚ) (a : ℚ) : a ≤ xs.foldl max a := by
  induction xs generalizing a with
  | nil => simp
  | cons x xs ih => exact le_trans (le_max_left a x) (ih (max a x))

theorem le_foldl_max_mem (xs : List ℚ) (a v : ℚ) (hv : v ∈ xs) :
    v ≤ xs.foldl max a := by
  induction xs generalizing a with
  | nil => cases hv
  | cons x xs ih =>
    rcases List.mem_cons.mp hv with rfl | h2
    · exact le_trans (le_max_right a v) (le_foldl_max_init xs (max a v))
    · exact ih _ h2

theorem npMin_le {l : List ℚ} {m : ℚ} (h : npMin l = some m) :
    ∀ v ∈ l, m ≤ v := by
  match l with
  | [] => simp [npMin] at h
  | x :: xs =>
    intro v hv
    have hm : m = xs.foldl min x := by
      simp only [npMin, Option.some_inj] at h
      exact h.symm
    rcases List.mem_cons.mp hv with rfl | h2
    · rw [hm]
      exact foldl_min_le_init xs v
    · rw [hm]
      exact foldl_min_le_mem xs x v h2

theorem le_npMax {l : List ℚ} {m : ℚ} (h : npMax l = some m) :
    ∀ v ∈ l, v ≤ m := by
  match l with
  | [] => simp [npMax] at h
  | x :: xs =>
    intro v hv
    have hm : m = xs.foldl max x := by
      simp only [npMax, Option.some_inj] at h
      exact h.symm
    rcases List.mem_cons.mp hv with rfl | h2
    · rw [hm]
      exact le_foldl_max_init xs v
    · rw [hm]
      exact le_foldl_max_mem xs x v h2

theorem px_mem_imgVals (img : Img) {i j : ℕ} (hi : i < img.h) (hj : j < img.w) :
    img.px i j ∈ imgVals img := by
  unfold imgVals
  refine List.mem_flatMap.mpr ⟨i, List.mem_range.mpr hi, ?_⟩
  exact List.mem_map.mpr ⟨j, List.mem_range.mpr hj, rfl⟩

/-- C5 is violated by the code on a degenerate input: for a constant image
the downsampled pixels are all equal, the denominator max - min is 0, and
the source divides 0 by 0 (NaN under numpy floats): no image with
intensities in [0, 100] is produced. -/
theorem down_sample_normalize_const_none :
    down_sample_normalize (constImg 6 6 7) = none := by
  with_unfolding_all rfl

/-- C5 amended: whenever the downsampled image contains two distinct
intensities (max of its values differs from min, which also requires a
nonempty image), the normalization is well defined and every intensity of
the result lies in [0, 100]. -/
theorem down_sample_normalize_bounds (img : Img) (mn mx : ℚ)
    (hmn : npMin (imgVals (downsample5 img)) = some mn)
    (hmx : npMax (imgVals (downsample5 img)) = some mx)
    (hne : ¬ mx - mn = 0) :
    ∃ out, down_sample_normalize img = some out
      ∧ out.h = (downsample5 img).h ∧ out.w = (downsample5 img).w
      ∧ ∀ i j, i < out.h → j < out.w → 0 ≤ out.px i j ∧ out.px i j ≤ 100 := by
  refine ⟨⟨(downsample5 img).h, (downsample5 img).w,
    fun i j => ((downsample5 img).px i j - mn) / (mx - mn) * 100⟩, ?_, rfl, rfl, ?_⟩
  · show (npMin (imgVals (downsample5 img))).bind _ = _
    rw [hmn]
    show (npMax (imgVals (downsample5 img))).bind _ = _
    rw [hmx]
    show (if mx - mn = 0 then none else some _) = _
    rw [if_neg hne]
  · intro i j hi hj
    have hv : (downsample5 img).px i j ∈ imgVals (downsample5 img) :=
      px_mem_imgVals (downsample5 img) hi hj
    have h1 : mn ≤ (downsample5 img).px i j := npMin_le hmn _ hv
    have h2 : (downsample5 img).px i j ≤ mx := le_npMax hmx _ hv
    have hlt : 0 < mx - mn := by
      rcases lt_or_eq_of_le (le_trans h1 h2) with h | h
      · linarith
      · exact absurd (by rw [h]; ring) hne
    constructor
    · have : 0 ≤ ((downsample5 img).px i j - mn) / (mx - mn) :=
        div_nonneg (by linarith) (le_of_lt hlt)
      linarith
    · have : ((downsample5 img).px i j - mn) / (mx - mn) ≤ 1 :=
        (div_le_one hlt).mpr (by linarith)
      linarith

/-- Witness for the amended C5 on the 6x6 ramp image, whose downsampled
values are 0, 5, 5, 10. -/
theorem down_sample_normalize_bounds_witness :
    ∃ out, down_sample_normalize rampImg = some out
      ∧ out.h = (downsample5 rampImg).h ∧ out.w = (downsample5 rampImg).w
      ∧ ∀ i j, i < out.h → j < out.w → 0 ≤ out.px i j ∧ out.px i j ≤ 100 :=
  down_sample_normalize_bounds rampImg 0 10
    (by with_unfolding_all rfl) (by with_unfolding_all rfl)
    (by with_unfolding_all decide)

/-- C10: adjust_cross writes through its stitch_template argument: after
the call the caller's array holds column 0 scaled by scale_x and column 1
scaled by scale_y, and, when flip is set, the grid-index column idx
replaced by len(chip_template[0]) - 1 - idx; the rotated pts_ids array is
returned in addition to that mutation. -/
theorem adjust_cross_mutates_template (st : List TRow) (sx sy : ℚ)
    (fsh ns : ℚ × ℚ) (ct : List ℚ × List ℚ) (rot : ℤ) (flip : Bool) :
    (adjust_cross st sx sy fsh ns ct rot flip).1 =
      st.map fun r => TRow.mk (r.x * sx) (r.y * sy)
        (if flip then (ct.1.length : ℚ) - 1 - r.idx else r.idx) r.idy := by
  unfold adjust_cross
  cases flip
  · simp
  · simp [List.map_map]

theorem insertionSort_map_add (c : ℚ) (l : List ℚ) :
    (l.map fun x => x + c).insertionSort (· ≤ ·)
      = (l.insertionSort (· ≤ ·)).map fun x => x + c := by
  have hperm : ((l.map fun x => x + c).insertionSort (· ≤ ·)).Perm
      ((l.insertionSort (· ≤ ·)).map fun x => x + c) :=
    (List.perm_insertionSort _ _).trans
      (((List.perm_insertionSort (· ≤ ·) l).map _).symm)
  exact @List.eq_of_perm_of_sorted ℚ (· ≤ ·) inferInstance _ _ hperm
    (List.sorted_insertionSort _ _)
    (List.Pairwise.map _ (fun a b hab => add_le_add_right hab c)
      (List.sorted_insertionSort _ l))

theorem median_map_add (c : ℚ) (l : List ℚ) (hl : l ≠ []) :
    median (l.map fun x => x + c) = median l + c := by
  simp only [median, insertionSort_map_add, List.length_map]
  have hlen : (l.insertionSort (· ≤ ·)).length = l.length :=
    (List.perm_insertionSort (· ≤ ·) l).length_eq
  have hpos : 0 < l.length := List.length_pos.mpr hl
  by_cases hpar : l.length % 2 = 1
  · rw [if_pos hpar, if_pos hpar]
    have hidx : l.length / 2 < (l.insertionSort (· ≤ ·)).length := by omega
    rw [List.getElem?_map, List.getElem?_eq_getElem hidx]
    simp
  · rw [if_neg hpar, if_neg hpar]
    have hidx1 : l.length / 2 - 1 < (l.insertionSort (· ≤ ·)).length := by omega
    have hidx2 : l.length / 2 < (l.insertionSort (· ≤ ·)).length := by omega
    rw [List.getElem?_map, List.getElem?_map,
        List.getElem?_eq_getElem hidx1, List.getElem?_eq_getElem hidx2]
    simp
    ring

/-- C1 fails on the code: with offset_guess (1, 1), angle 0, shapes
(4, 4), a single transformed point (2, 3), a single vision point (3, 4)
and threshold 1, the translated point coincides with the vision point and
qualifies, yet get_rough_offset returns (1, 1) (the full offset, since the
source subtracts the matched vision points from the rotated points WITHOUT
the offset_guess translation), while the claim prescribes the negative
median of the translated differences, which here is (0, 0). -/
theorem get_rough_offset_counterexample :
    (roughQualified (1, 1) 0 (4, 4) (4, 4) [(2, 3)] [(3, 4)] 1).length = 1
    ∧ get_rough_offset (1, 1) 0 (4, 4) (4, 4) [(2, 3)] [(3, 4)] 1 = (1, 1)
    ∧ rough_offset_claimed (1, 1) 0 (4, 4) (4, 4) [(2, 3)] [(3, 4)] 1 = (0, 0) := by
  refine ⟨?_, ?_, ?_⟩
  · with_unfolding_all decide
  · with_unfolding_all decide
  · with_unfolding_all decide

/-- C1 amended: with at least one qualified match, get_rough_offset
returns on each axis offset_guess plus the negative median of the
per-axis differences between the translated points and their matched
vision points (the quantity the original claim named); consequently when
the translated points exactly coincide with the vision points the function
returns offset_guess itself, not (0, 0). -/
theorem get_rough_offset_amended (g : ℚ × ℚ) (rot : ℤ) (os ns : ℚ × ℚ)
    (tp vp : List (ℚ × ℚ)) (th : ℚ)
    (hq : roughQualified g rot os ns tp vp th ≠ []) :
    get_rough_offset g rot os ns tp vp th =
      ((rough_offset_claimed g rot os ns tp vp th).1 + g.1,
       (rough_offset_claimed g rot os ns tp vp th).2 + g.2) := by
  have hlen : 0 < (roughQualified g rot os ns tp vp th).length :=
    List.length_pos.mpr hq
  have hx : (roughQualified g rot os ns tp vp th).map
        (fun p => p.1 + g.1 - (matchedVisionPt g vp p).1)
      = ((roughQualified g rot os ns tp vp th).map
        fun p => p.1 - (matchedVisionPt g vp p).1).map fun x => x + g.1 := by
    rw [List.map_map]
    refine List.map_congr_left fun p _ => ?_
    simp only [Function.comp_apply]
    ring
  have hy : (roughQualified g rot os ns tp vp th).map
        (fun p => p.2 + g.2 - (matchedVisionPt g vp p).2)
      = ((roughQualified g rot os ns tp vp th).map
        fun p => p.2 - (matchedVisionPt g vp p).2).map fun x => x + g.2 := by
    rw [List.map_map]
    refine List.map_congr_left fun p _ => ?_
    simp only [Function.comp_apply]
    ring
  have hnx : (roughQualified g rot os ns tp vp th).map
      (fun p => p.1 - (matchedVisionPt g vp p).1) ≠ [] := by
    simpa using hq
  have hny : (roughQualified g rot os ns tp vp th).map
      (fun p => p.2 - (matchedVisionPt g vp p).2) ≠ [] := by
    simpa using hq
  simp only [get_rough_offset, rough_offset_claimed]
  rw [if_pos hlen, if_pos hlen, hx, hy,
      median_map_add _ _ hnx, median_map_add _ _ hny]
  refine Prod.ext ?_ ?_
  · show -(median _) = -(median _ + g.1) + g.1
    ring
  · show -(median _) = -(median _ + g.2) + g.2
    ring

/-- Witness for the amended C1 on the counterexample instance. -/
theorem get_rough_offset_amended_witness :
    get_rough_offset (1, 1) 0 (4, 4) (4, 4) [(2, 3)] [(3, 4)] 1 =
      ((rough_offset_claimed (1, 1) 0 (4, 4) (4, 4) [(2, 3)] [(3, 4)] 1).1 + 1,
       (rough_offset_claimed (1, 1) 0 (4, 4) (4, 4) [(2, 3)] [(3, 4)] 1).2 + 1) :=
  get_rough_offset_amended (1, 1) 0 (4, 4) (4, 4) [(2, 3)] [(3, 4)] 1
    (by with_unfolding_all decide)

/-- C3: in every rotation-hypothesis iteration of the orchestrator, local
search runs exactly when the rough offset is nonzero on both axes;
whenever either axis is exactly 0 the hypothesis records the empty offset
and score 0 and no search is attempted. -/
theorem hypothesis_gate (st : AlignState) (angle : ℤ) (ha : angle ∈ angleSet) :
    ((roughOffsetAt st angle).1 ≠ 0 ∧ (roughOffsetAt st angle).2 ≠ 0 →
      hypothesisStep st angle = search_fov st (roughOffsetAt st angle) angle)
    ∧ (((roughOffsetAt st angle).1 = 0 ∨ (roughOffsetAt st angle).2 = 0) →
      hypothesisStep st angle = some (none, 0)) := by
  constructor
  · intro h
    show (if (roughOffsetAt st angle).1 ≠ 0 ∧ (roughOffsetAt st angle).2 ≠ 0
        then search_fov st (roughOffsetAt st angle) angle
        else some (none, 0)) = _
    rw [if_pos h]
  · intro h
    show (if (roughOffsetAt st angle).1 ≠ 0 ∧ (roughOffsetAt st angle).2 ≠ 0
        then search_fov st (roughOffsetAt st angle) angle
        else some (none, 0)) = _
    rw [if_neg (by tauto)]

/-- Witness for C3 on the concrete fixture state at the hypothesis
angle 0. -/
theorem hypothesis_gate_witness :
    ((roughOffsetAt testState 0).1 ≠ 0 ∧ (roughOffsetAt testState 0).2 ≠ 0 →
      hypothesisStep testState 0 = search_fov testState (roughOffsetAt testState 0) 0)
    ∧ (((roughOffsetAt testState 0).1 = 0 ∨ (roughOffsetAt testState 0).2 = 0) →
      hypothesisStep testState 0 = some (none, 0)) :=
  hypothesis_gate testState 0 (by decide)

theorem fovFold_inv (score : ℚ × ℚ → Option ℚ) :
    ∀ (cs processed : List (ℚ × ℚ)) (acc res : ℚ × Option (ℚ × ℚ)),
      FovInv score processed acc → fovFold score cs acc = some res →
      FovInv score (processed ++ cs) res := by
  intro cs
  induction cs with
  | nil =>
    intro processed acc res hinv hf
    simp only [fovFold, Option.some_inj] at hf
    subst hf
    simpa using hinv
  | cons c cs ih =>
    intro processed acc res hinv hf
    simp only [fovFold] at hf
    split at hf
    · exact absurd hf (by simp)
    · rename_i s hsc
      have hstep : FovInv score (processed ++ [c])
          (if acc.1 < s then (s, some c) else acc) := by
        obtain ⟨h0, hsome, hle, hnone, hsel⟩ := hinv
        by_cases hlt : acc.1 < s
        · rw [if_pos hlt]
          refine ⟨le_of_lt (lt_of_le_of_lt h0 hlt), ?_, ?_, ?_, ?_⟩
          · intro d hd
            rcases List.mem_append.mp hd with hd | hd
            · exact hsome d hd
            · have hdc : d = c := List.mem_singleton.mp hd
              subst hdc
              rw [hsc]
              rfl
          · intro d hd v hv
            rcases List.mem_append.mp hd with hd | hd
            · exact le_of_lt (lt_of_le_of_lt (hle d hd v hv) hlt)
            · have hdc : d = c := List.mem_singleton.mp hd
              subst hdc
              rw [hsc] at hv
              cases hv
              exact le_refl _
          · intro hcontra
            exact absurd hcontra (by simp)
          · intro off hoff
            have hoffc : c = off := Option.some_inj.mp hoff
            subst hoffc
            refine ⟨by rw [hsc], lt_of_le_of_lt h0 hlt, processed, [], rfl, ?_⟩
            intro d hd v hv
            exact lt_of_le_of_lt (hle d hd v hv) hlt
        · rw [if_neg hlt]
          have hs_le : s ≤ acc.1 := le_of_not_lt hlt
          refine ⟨h0, ?_, ?_, hnone, ?_⟩
          · intro d hd
            rcases List.mem_append.mp hd with hd | hd
            · exact hsome d hd
            · have hdc : d = c := List.mem_singleton.mp hd
              subst hdc
              rw [hsc]
              rfl
          · intro d hd v hv
            rcases List.mem_append.mp hd with hd | hd
            · exact hle d hd v hv
            · have hdc : d = c := List.mem_singleton.mp hd
              subst hdc
              rw [hsc] at hv
              cases hv
              exact hs_le
          · intro off hoff
            obtain ⟨hso, hpos, pre, post, heq, hpre⟩ := hsel off hoff
            refine ⟨hso, hpos, pre, post ++ [c], ?_, hpre⟩
            rw [heq]
            simp
      have hres := ih (processed ++ [c]) _ res hstep hf
      rw [List.append_assoc] at hres
      simpa using hres

/-- C4: whenever search_fov returns, it has successfully scored exactly
the 25 candidates rough_offset + (col * fov_size, row * fov_size) for row
and col in -2..2 (raster order), each scored at the candidate divided by
5; a returned offset is a candidate whose score is strictly positive and
maximal, the first such candidate in raster order on ties; and when no
candidate scores strictly above 0 it returns the empty offset with
score 0. -/
theorem search_fov_grid (st : AlignState) (ori : ℚ × ℚ) (angle : ℤ)
    (optOff : Option (ℚ × ℚ)) (s : ℚ)
    (hrun : search_fov st ori angle = some (optOff, s)) :
    (fovCandidates ori st.fov_size).length = 25
    ∧ (∀ c ∈ fovCandidates ori st.fov_size, (candScore st angle c).isSome)
    ∧ (optOff = none → s = 0 ∧ ∀ c ∈ fovCandidates ori st.fov_size,
        ∀ v, candScore st angle c = some v → v ≤ 0)
    ∧ (∀ off, optOff = some off → candScore st angle off = some s ∧ 0 < s
        ∧ (∀ c ∈ fovCandidates ori st.fov_size, ∀ v,
            candScore st angle c = some v → v ≤ s)
        ∧ ∃ pre post, fovCandidates ori st.fov_size = pre ++ off :: post
            ∧ ∀ c ∈ pre, ∀ v, candScore st angle c = some v → v < s) := by
  unfold search_fov at hrun
  obtain ⟨r, hr, hmap⟩ := Option.map_eq_some'.mp hrun
  have hr1 : r.1 = s := congrArg Prod.snd hmap
  have hr2 : r.2 = optOff := congrArg Prod.fst hmap
  subst hr1
  subst hr2
  have hbase : FovInv (candScore st angle) [] (0, (none : Option (ℚ × ℚ))) := by
    refine ⟨le_refl 0, ?_, ?_, fun _ => rfl, ?_⟩
    · intro d hd
      cases hd
    · intro d hd
      cases hd
    · intro off hoff
      exact absurd hoff (by simp)
  have hinv := fovFold_inv (candScore st angle)
    (fovCandidates ori st.fov_size) [] (0, none) r hbase hr
  rw [List.nil_append] at hinv
  obtain ⟨h0, hsome, hle, hnone, hsel⟩ := hinv
  refine ⟨by rfl, hsome, ?_, ?_⟩
  · intro hn
    refine ⟨hnone hn, ?_⟩
    intro d hd v hv
    have := hle d hd v hv
    rw [hnone hn] at this
    exact this
  · intro off hoff
    obtain ⟨hso, hpos, pre, post, heq, hpre⟩ := hsel off hoff
    exact ⟨hso, hpos, hle, pre, post, heq, hpre⟩

set_option maxRecDepth 8000 in
/-- Witness for C4 on the concrete fixture state: every candidate scores
0, so search_fov returns the empty offset and score 0. -/
theorem search_fov_grid_witness :
    (fovCandidates (1, 1) testState.fov_size).length = 25
    ∧ (∀ c ∈ fovCandidates (1, 1) testState.fov_size, (candScore testState 0 c).isSome)
    ∧ ((none : Option (ℚ × ℚ)) = none → (0 : ℚ) = 0
        ∧ ∀ c ∈ fovCandidates (1, 1) testState.fov_size,
          ∀ v, candScore testState 0 c = some v → v ≤ 0)
    ∧ (∀ off, (none : Option (ℚ × ℚ)) = some off →
        candScore testState 0 off = some 0 ∧ (0 : ℚ) < 0
        ∧ (∀ c ∈ fovCandidates (1, 1) testState.fov_size, ∀ v,
            candScore testState 0 c = some v → v ≤ 0)
        ∧ ∃ pre post, fovCandidates (1, 1) testState.fov_size = pre ++ off :: post
            ∧ ∀ c ∈ pre, ∀ v, candScore testState 0 c = some v → v < 0) :=
  search_fov_grid testState (1, 1) 0 none 0 (by with_unfolding_all decide)

/-- Witness for C9 on two concrete 2x2 images with offset (0, 0): both
overlap extents equal 2. -/
theorem cal_score_slices_inbounds_witness :
    (npSlice2 (constImg 2 2 1) (vShift 0) (vShift 0 + overlapH (constImg 2 2 1) (constImg 2 2 1) 0)
        (vShift 0) (vShift 0 + overlapW (constImg 2 2 1) (constImg 2 2 1) 0)).h
      = (overlapH (constImg 2 2 1) (constImg 2 2 1) 0).toNat
    ∧ (npSlice2 (constImg 2 2 1) (vShift 0) (vShift 0 + overlapH (constImg 2 2 1) (constImg 2 2 1) 0)
        (vShift 0) (vShift 0 + overlapW (constImg 2 2 1) (constImg 2 2 1) 0)).w
      = (overlapW (constImg 2 2 1) (constImg 2 2 1) 0).toNat
    ∧ (npSlice2 (constImg 2 2 1) (tShift 0) (tShift 0 + overlapH (constImg 2 2 1) (constImg 2 2 1) 0)
        (tShift 0) (tShift 0 + overlapW (constImg 2 2 1) (constImg 2 2 1) 0)).h
      = (overlapH (constImg 2 2 1) (constImg 2 2 1) 0).toNat
    ∧ (npSlice2 (constImg 2 2 1) (tShift 0) (tShift 0 + overlapH (constImg 2 2 1) (constImg 2 2 1) 0)
        (tShift 0) (tShift 0 + overlapW (constImg 2 2 1) (constImg 2 2 1) 0)).w
      = (overlapW (constImg 2 2 1) (constImg 2 2 1) 0).toNat
    ∧ vShift 0 + overlapH (constImg 2 2 1) (constImg 2 2 1) 0 ≤ (constImg 2 2 1).h
    ∧ vShift 0 + overlapW (constImg 2 2 1) (constImg 2 2 1) 0 ≤ (constImg 2 2 1).w
    ∧ tShift 0 + overlapH (constImg 2 2 1) (constImg 2 2 1) 0 ≤ (constImg 2 2 1).h
    ∧ tShift 0 + overlapW (constImg 2 2 1) (constImg 2 2 1) 0 ≤ (constImg 2 2 1).w
    ∧ (cal_score (constImg 2 2 1) (constImg 2 2 1) 0 0).isSome :=
  cal_score_slices_inbounds (constImg 2 2 1) (constImg 2 2 1) 0 0
    (by with_unfolding_all decide) (by with_unfolding_all decide)
